import Mathlib

/-!
Verification development for the `poli` repository.

Part A models the concurrent multi-stream response orchestrator described by the
specification (StreamDecoder, Dispatcher merge, TurnCoordinator,
ConversationHistory, RequestSession states).  The orchestrator sources are not
present in the provided source tree, so these definitions are modelled from the
specification text, as flagged in their doc comments.

Part B is a shallow embedding of the calculator functions of `src/main.py`
(`get_planetary_features`, `analyze_cycle_patterns`, `get_predicted_stage`),
with Python floats modelled as rationals and dates as integer day numbers.
-/

namespace Poli

/-! ### Part A: stream events and the decoder -/

/-- Modelled from the spec: `StreamEvent` is a tagged union
`Delta{text} | Done{} | Failed{cause}` (§3); the orchestrator code carrying it
is absent from the provided sources. -/
inductive StreamEvent where
  | delta (text : String)
  | done
  | failed (cause : String)
deriving DecidableEq

/-- A terminal event is `done` or `failed` (§3). -/
def StreamEvent.isTerminal : StreamEvent → Bool
  | .delta _ => false
  | .done => true
  | .failed _ => true

/-- Modelled from the spec: one textual record of the framed byte stream (§4.1):
a record either carries a payload that parses to a text delta, is the literal
end-marker, or fails envelope/payload parsing (malformed). -/
inductive RawRecord where
  | valid (payload : String)
  | endMarker
  | malformed
deriving DecidableEq

/-- Modelled from the spec: how the raw byte source ends (§4.1): the peer closes
the connection (clean closure, polite or abrupt) or a transport-level error
occurs. -/
inductive StreamEnd where
  | closed
  | transportError (cause : String)
deriving DecidableEq

/-- Modelled from the spec, §4.1 StreamDecoder: valid records become `delta`s;
the end-marker terminates with `done` without emitting it; malformed records
are skipped and decoding continues; exhaustion of the source terminates with
`done` on clean closure and with `failed` on a transport error. -/
def decode : List RawRecord → StreamEnd → List StreamEvent
  | [], .closed => [.done]
  | [], .transportError c => [.failed c]
  | .valid t :: rs, e => .delta t :: decode rs e
  | .endMarker :: _, _ => [.done]
  | .malformed :: rs, e => decode rs e

/-! ### Part A: dispatcher merge -/

/-- Modelled from the spec, §4.3: the merged channel of `(agentKey, event)`
pairs.  Arrival nondeterminism is made explicit as a schedule: the list of
agent keys in the order their next event became ready.  Each schedule entry
surfaces the ready agent's next not-yet-surfaced event, so per-agent emission
order is preserved while cross-agent interleaving follows the schedule; the
launch order of the sessions plays no role. -/
def mergeRun : List ℕ → (ℕ → List StreamEvent) → List (ℕ × StreamEvent)
  | [], _ => []
  | a :: sched, streams =>
    match streams a with
    | [] => mergeRun sched streams
    | e :: rest => (a, e) :: mergeRun sched (Function.update streams a rest)

/-- The subsequence of merged events belonging to agent `a`, in order. -/
def projAgent (a : ℕ) (l : List (ℕ × StreamEvent)) : List StreamEvent :=
  l.filterMap (fun p => if p.1 = a then some p.2 else none)

/-! ### Part A: turns and conversation history -/

/-- Modelled from the spec, §3 Turn: author kind is `user` or `agent` with the
originating agent's identity (agent keys modelled as naturals). -/
inductive Author where
  | user
  | agent (key : ℕ)
deriving DecidableEq

/-- Modelled from the spec, §3 Turn: one utterance with its author, text, and
the monotonically increasing sequence number assigned at append time. -/
structure Turn where
  author : Author
  text : String
  seq : ℕ
deriving DecidableEq

/-- Modelled from the spec, §3/§4.5 ConversationHistory: an ordered,
append-only sequence of Turns. -/
abbrev ConversationHistory := List Turn

/-- Modelled from the spec, §4.5 `append(turn)`: the new Turn goes at the end
and receives sequence number 1 + (count of prior appends). -/
def histAppend (h : ConversationHistory) (a : Author) (t : String) : ConversationHistory :=
  List.append h [⟨a, t, List.length h + 1⟩]

/-- A sequence of append operations applied in order (the only mutations
ConversationHistory admits: no deletion or edit operation exists, §4.5). -/
def appendAll (h : ConversationHistory) (ops : List (Author × String)) : ConversationHistory :=
  ops.foldl (fun acc p => histAppend acc p.1 p.2) h

/-- The agent keys of the agent Turns of a history, in order. -/
def agentKeys (h : ConversationHistory) : List ℕ :=
  h.filterMap (fun t => match t.author with | .agent k => some k | .user => none)

/-- The agent keys of the `done` events of a merged stream, in completion
order. -/
def doneKeys (m : List (ℕ × StreamEvent)) : List ℕ :=
  m.filterMap (fun p => match p.2 with | .done => some p.1 | _ => none)

/-! ### Part A: turn coordinator -/

/-- Modelled from the spec, §4.4 TurnCoordinator: consume the merged sequence;
per agent, accumulate Delta text; on `done` append an agent Turn carrying the
accumulated text (append order = completion order); on `failed` append no Turn
and continue; the round is over when the merged sequence is exhausted. -/
def processMerged (h : ConversationHistory) (acc : ℕ → String) :
    List (ℕ × StreamEvent) → ConversationHistory
  | [] => h
  | (a, .delta t) :: rest =>
      processMerged h (Function.update acc a (String.append (acc a) t)) rest
  | (a, .done) :: rest => processMerged (histAppend h (.agent a) (acc a)) acc rest
  | (_, .failed _) :: rest => processMerged h acc rest

/-- Empty per-agent accumulators at round start. -/
def accInit : ℕ → String := fun _ => ""

/-! ### Part A: round model and snapshot isolation -/

/-- Modelled from the spec, §3 Agent: stable key, display label, persona
directive; immutable configuration. -/
structure Agent where
  key : ℕ
  label : String
  persona : String
deriving DecidableEq

/-- Speaker label used when rendering a transcript (§4.2 convention). -/
def authorLabel : Author → String
  | .user => "user"
  | .agent k => String.append "agent-" (toString k)

/-- Modelled from the spec, §4.5 `render()`: each Turn as
`[speaker-label]: text`, in original order. -/
def renderHistory (h : ConversationHistory) : String :=
  String.intercalate "\n"
    (h.map (fun t =>
      String.append "[" (String.append (authorLabel t.author)
        (String.append "]: " t.text))))

/-- Modelled from the spec, §4.2: the outbound request input of one session:
global rules, the agent's persona directive, and the rendered transcript of
the snapshot History. -/
def sessionInput (rules persona : String) (snap : ConversationHistory) : String :=
  String.append rules (String.append "\n"
    (String.append persona (String.append "\n" (renderHistory snap))))

/-- The persona directive of the rostered agent with key `k`. -/
def personaOf (roster : List Agent) (k : ℕ) : String :=
  match roster.find? (fun ag => ag.key == k) with
  | some ag => ag.persona
  | none => ""

/-- Modelled from the spec, §4.4/§4.5: one round.  The History snapshot is
taken once at round start; every session's request input is built from that
snapshot, while the coordinator appends completed replies to the live
history.  Returns the post-round history and, per agent key, the transcript
input that agent's session read. -/
def runRound (rules : String) (roster : List Agent) (h : ConversationHistory)
    (m : List (ℕ × StreamEvent)) : ConversationHistory × (ℕ → String) :=
  let snap := h
  (processMerged h accInit m,
   fun k => sessionInput rules (personaOf roster k) snap)

/-! ### Part A: session states -/

/-- Modelled from the spec, §3 RequestSession state machine. -/
inductive SessionState where
  | pending
  | connecting
  | streaming
  | completed
  | failedState
  | cancelled
deriving DecidableEq

/-- Terminal session states (§3). -/
def SessionState.isTerminal : SessionState → Bool
  | .completed => true
  | .failedState => true
  | .cancelled => true
  | _ => false

/-- Modelled from the spec, §3: how one observed event advances one session's
state: a first event moves `connecting` to `streaming`; `done` ends in
`Completed`; `failed` ends in `Failed`; a terminal state never changes. -/
def stepState (s : SessionState) : StreamEvent → SessionState
  | .delta _ => if s.isTerminal then s else .streaming
  | .done => if s.isTerminal then s else .completed
  | .failed _ => if s.isTerminal then s else .failedState

/-- Modelled from the spec, §4.4/§7: the session states after the round has
consumed the whole merged sequence. -/
def roundStates (init : ℕ → SessionState) (m : List (ℕ × StreamEvent)) :
    ℕ → SessionState :=
  m.foldl (fun st p => Function.update st p.1 (stepState (st p.1) p.2)) init

/-! ### Part B: `get_planetary_features` (src/main.py, lines 43-84)

Python floats are modelled as rationals. -/

/-- Floor of a rational, computably (`num / den` with Euclidean division);
equal to the mathematical floor, see `ratFloor_eq_floor`. -/
def ratFloor (q : ℚ) : ℤ := q.num / (q.den : ℤ)

/-- Python float modulo `a % b`: `a - b * floor(a / b)` (which for `b > 0`
lands in `[0, b)`, matching Python semantics). -/
def pymod (a b : ℚ) : ℚ := a - b * ((ratFloor (a / b) : ℤ) : ℚ)

/-- The heliocentric-longitude values, in degrees, that
`get_planetary_features` reads off `ephem` for the requested date
(`math.degrees(planet.hlon)` in the source); the ephemeris itself is an
external library, so these are the embedding's inputs. -/
structure PlanetLongitudes where
  mars : ℚ
  pluto : ℚ
  venus : ℚ
  saturn : ℚ

/-- The transcendental `math.sin` / `math.cos` / `math.radians` calls of
`get_planetary_features`, modelled as an arbitrary oracle: the claims under
study do not depend on their values. -/
structure TrigOracle where
  sin : ℚ → ℚ
  cos : ℚ → ℚ
  radians : ℚ → ℚ

/-- src/main.py lines 75-77: `diff = abs(venus_lon - saturn_lon) % 360`,
`diff_mod_90 = diff % 90`, `dist_to_aspect = min(diff_mod_90, 90 - diff_mod_90)`. -/
def aspectDist (venus_lon saturn_lon : ℚ) : ℚ :=
  min (pymod (pymod |venus_lon - saturn_lon| 360) 90)
    (90 - pymod (pymod |venus_lon - saturn_lon| 360) 90)

/-- src/main.py lines 43-84, `get_planetary_features`: the whole body runs in a
`try`; `none` models the date/ephemeris computation raising, in which case the
`except` branch returns the fallback `[0, 0, 0, 0, 0, 0.5]`.  Otherwise the
result is the sin/cos of the Mars and Pluto longitudes, the Venus-Saturn
aspect pressure `1 / (dist_to_aspect + 1)`, and `geo_stress_default = 0.5`. -/
def get_planetary_features (trig : TrigOracle) :
    Option PlanetLongitudes → List ℚ
  | none => [0, 0, 0, 0, 0, 1/2]
  | some p =>
    let mars_rad := trig.radians p.mars
    let pluto_rad := trig.radians p.pluto
    let aspect_vs := 1 / (aspectDist p.venus p.saturn + 1)
    [trig.sin mars_rad, trig.cos mars_rad, trig.sin pluto_rad,
     trig.cos pluto_rad, aspect_vs, 1/2]

/-! ### Part B: `analyze_cycle_patterns` (src/main.py, lines 89-131)

Dates are modelled as integer day numbers, so `(d2 - d1).days` is `d2 - d1`. -/

/-- One row of the dataframe: its `Date` and its `生理阶段` label. -/
structure Row where
  date : ℤ
  stage : String

/-- Insertion step of the date sort. -/
def insertSorted (r : Row) : List Row → List Row
  | [] => [r]
  | x :: xs => if r.date ≤ x.date then r :: x :: xs else x :: insertSorted r xs

/-- `df.sort_values('Date')` (src/main.py line 94); the relative order of rows
with equal dates is irrelevant here because only the (equal) date values are
consumed downstream. -/
def sortByDate : List Row → List Row
  | [] => []
  | r :: rs => insertSorted r (sortByDate rs)

/-- src/main.py line 97: the dates labelled `月经期`, in date order. -/
def periodDays (df : List Row) : List ℤ :=
  ((sortByDate df).filter (fun r => r.stage == "月经期")).map Row.date

/-- src/main.py lines 104-111 loop: walking the remaining period days with
`prev` the previous period day, keep a day as a new cycle start when its gap
from the previous period day exceeds 10. -/
def startsAux : ℤ → List ℤ → List ℤ
  | _, [] => []
  | prev, d :: ds => if 10 < d - prev then d :: startsAux d ds else startsAux d ds

/-- The `period_starts` of a period-day list: its first element, then the
loop of `startsAux` (src/main.py lines 104-111). -/
def startsFrom : List ℤ → List ℤ
  | [] => []
  | d :: ds => d :: startsAux d ds

/-- The `period_starts` list of src/main.py lines 104-111. -/
def periodStarts (df : List Row) : List ℤ :=
  startsFrom (periodDays df)

/-- Consecutive differences (src/main.py lines 118-119:
`period_starts[i] - period_starts[i-1]`). -/
def gapsOf : List ℤ → List ℤ
  | a :: b :: rest => (b - a) :: gapsOf (b :: rest)
  | _ => []

/-- The `cycle_lengths` list (src/main.py lines 117-122): inter-start gaps
kept only when they lie in `[20, 40]`. -/
def inRangeGaps (df : List Row) : List ℤ :=
  (gapsOf (periodStarts df)).filter (fun g => decide (20 ≤ g) && decide (g ≤ 40))

/-- src/main.py lines 113-131, the part of `analyze_cycle_patterns` after
`period_starts` is built: fewer than two starts gives `(starts[-1], 29)`;
otherwise the gaps in `[20, 40]` are averaged with integer truncation, with
29 when none is in range.  The source never reaches this point with an empty
starts list (two or more period days make at least one start), so that arm's
value is immaterial. -/
def analyzeStarts : List ℤ → Option ℤ × ℤ
  | [] => (none, 29)
  | [s] => (some s, 29)
  | s0 :: s1 :: ss =>
    let cycle_lengths :=
      (gapsOf (s0 :: s1 :: ss)).filter (fun g => decide (20 ≤ g) && decide (g ≤ 40))
    ((s0 :: s1 :: ss).getLast?,
     if cycle_lengths.isEmpty then 29
     else cycle_lengths.sum / (cycle_lengths.length : ℤ))

/-- src/main.py lines 89-131, `analyze_cycle_patterns`: returns
`(last_period_date, avg_cycle_len)`.  Fewer than two period days: `(None, 29)`
(the early return of line 99); otherwise the period starts are built and
averaged by `analyzeStarts`.  `int(np.mean(..))` is embedded as exact integer
division: the gaps are integers, so the true mean is a rational whose
distance to the nearest integer below exceeds any double-rounding error at
realistic list sizes. -/
def analyze_cycle_patterns (df : List Row) : Option ℤ × ℤ :=
  if (periodDays df).length < 2 then (none, 29)
  else analyzeStarts (periodStarts df)

/-! ### Part B: `get_predicted_stage` (src/main.py, lines 230-257) -/

/-- The `cycle_lookup` dictionary (date to historical stage), modelled as an
association list. -/
def lookupStage (cycle_lookup : List (ℤ × String)) (d : ℤ) : Option String :=
  (cycle_lookup.find? (fun p => p.1 == d)).map Prod.snd

/-- src/main.py lines 230-257, `get_predicted_stage`: historical lookup wins;
otherwise, with no known last period the stage defaults; dates before the last
period start yield `(未知, 数据前)`; otherwise the 1-based day in cycle
`delta_days % avg_cycle_len + 1` selects among the four stages, with
`ovulation_day = avg_cycle_len - 14`.  `%` matches Python for a positive
modulus. -/
def get_predicted_stage (cycle_lookup : List (ℤ × String))
    (last_period_date : Option ℤ) (avg_cycle_len : ℤ) (target_d : ℤ) :
    String × String :=
  match lookupStage cycle_lookup target_d with
  | some stage => (stage, "历史记录")
  | none =>
    match last_period_date with
    | none => ("卵泡期", "默认")
    | some last =>
      let delta_days := target_d - last
      if delta_days < 0 then ("未知", "数据前")
      else
        let day_in_cycle := delta_days % avg_cycle_len + 1
        let ovulation_day := avg_cycle_len - 14
        if 1 ≤ day_in_cycle ∧ day_in_cycle ≤ 5 then ("月经期", "推算")
        else if ovulation_day + 2 ≤ day_in_cycle then ("黄体期", "推算")
        else if ovulation_day - 1 ≤ day_in_cycle ∧ day_in_cycle ≤ ovulation_day + 1 then
          ("排卵期", "推算")
        else ("卵泡期", "推算")

/-! ## Theorems -/

/-- Every decoded sequence is a run of non-terminal events closed by one
terminal event. -/
theorem decode_shape (rs : List RawRecord) (e : StreamEnd) :
    ∃ ds t, decode rs e = ds ++ [t] ∧ t.isTerminal = true ∧
      ∀ x ∈ ds, x.isTerminal = false := by
  induction rs with
  | nil =>
    cases e with
    | closed => exact ⟨[], .done, rfl, rfl, by simp⟩
    | transportError c => exact ⟨[], .failed c, rfl, rfl, by simp⟩
  | cons r rs ih =>
    cases r with
    | valid t =>
      obtain ⟨ds, tm, h1, h2, h3⟩ := ih
      refine ⟨.delta t :: ds, tm, ?_, h2, ?_⟩
      · simp [decode, h1]
      · intro x hx
        rcases List.mem_cons.mp hx with h | h
        · subst h; rfl
        · exact h3 x h
    | endMarker => exact ⟨[], .done, rfl, rfl, by simp⟩
    | malformed =>
      obtain ⟨ds, tm, h1, h2, h3⟩ := ih
      exact ⟨ds, tm, by simpa [decode] using h1, h2, h3⟩

/-- Claim C3: every session sequence produced by the decoder contains exactly
one terminal event (`done` or `failed`), and that terminal event is last; no
delta follows it. -/
theorem session_terminal_unique (rs : List RawRecord) (e : StreamEnd) :
    ∃ ds t, decode rs e = ds ++ [t] ∧ t.isTerminal = true ∧
      (∀ x ∈ ds, x.isTerminal = false) ∧
      (decode rs e).filter StreamEvent.isTerminal = [t] := by
  obtain ⟨ds, t, h1, h2, h3⟩ := decode_shape rs e
  refine ⟨ds, t, h1, h2, h3, ?_⟩
  rw [h1, List.filter_append]
  have hnil : ds.filter StreamEvent.isTerminal = [] := by
    rw [List.filter_eq_nil_iff]
    intro a ha
    simp [h3 a ha]
  simp [hnil, h2]

/-- Claim C4: a byte stream holding one unparsable record between two valid
delta records decodes to exactly the two deltas, in order, and the clean
closure terminal `done`: no `failed` event is produced. -/
theorem decode_malformed_tolerance (a b : String) :
    decode [.valid a, .malformed, .valid b] .closed =
      [.delta a, .delta b, .done] := rfl

/-- Projection distributes over cons. -/
theorem projAgent_cons (a k : ℕ) (e : StreamEvent) (l : List (ℕ × StreamEvent)) :
    projAgent a ((k, e) :: l) =
      if k = a then e :: projAgent a l else projAgent a l := by
  by_cases h : k = a <;> simp [projAgent, List.filterMap_cons, h]

/-- The merge surfaces, for agent `a`, exactly the first `count a sched`
events of that agent's stream, in emission order. -/
theorem mergeRun_proj (sched : List ℕ) :
    ∀ (streams : ℕ → List StreamEvent) (a : ℕ),
      projAgent a (mergeRun sched streams) =
        (streams a).take (List.count a sched) := by
  induction sched with
  | nil => intro streams a; simp [mergeRun, projAgent]
  | cons b s ih =>
    intro streams a
    rcases h : streams b with _ | ⟨e, rest⟩
    · rw [show mergeRun (b :: s) streams = mergeRun s streams by
        simp [mergeRun, h]]
      rw [ih streams a]
      by_cases hab : a = b
      · subst hab; rw [h]; simp
      · rw [List.count_cons]; simp [Ne.symm hab]
    · rw [show mergeRun (b :: s) streams =
          (b, e) :: mergeRun s (Function.update streams b rest) by
        simp [mergeRun, h]]
      rw [projAgent_cons]
      by_cases hab : a = b
      · subst hab
        rw [if_pos rfl, ih _ a, Function.update_same, h, List.count_cons,
          if_pos (by simp)]
        rfl
      · rw [if_neg (Ne.symm hab), ih _ a, Function.update_noteq hab,
          List.count_cons]
        simp [Ne.symm hab]

/-- Claim C2: in the merged sequence, the events of a single agent appear in
that agent's emission order (the projection onto agent `a` is exactly that
agent's stream), while cross-agent interleaving follows the arrival schedule
that drives the merge; the launch order of the sessions is not an input of
the merge at all. -/
theorem merged_stream_agent_order (sched : List ℕ)
    (streams : ℕ → List StreamEvent) (a : ℕ)
    (hready : (streams a).length ≤ List.count a sched) :
    projAgent a (mergeRun sched streams) = streams a := by
  rw [mergeRun_proj]
  exact List.take_of_length_le hready

/-- Witness for C2 at a concrete schedule and pair of streams. -/
theorem merged_stream_agent_order_witness :
    projAgent 0 (mergeRun [0, 1, 0, 1]
      (fun k => if k = 0 then [.delta "a", .done] else [.delta "b", .done])) =
      (fun k => if k = 0 then [StreamEvent.delta "a", .done]
        else [.delta "b", .done]) 0 :=
  merged_stream_agent_order [0, 1, 0, 1]
    (fun k => if k = 0 then [.delta "a", .done] else [.delta "b", .done]) 0
    (by decide)

/-- `doneKeys` distributes over append. -/
theorem doneKeys_append (l1 l2 : List (ℕ × StreamEvent)) :
    doneKeys (l1 ++ l2) = doneKeys l1 ++ doneKeys l2 :=
  List.filterMap_append l1 l2 _

/-- A `done` event contributes its agent key to `doneKeys`. -/
theorem doneKeys_cons_done (a : ℕ) (l : List (ℕ × StreamEvent)) :
    doneKeys ((a, .done) :: l) = a :: doneKeys l := rfl

/-- `agentKeys` distributes over append. -/
theorem agentKeys_append (h1 h2 : ConversationHistory) :
    agentKeys (h1 ++ h2) = agentKeys h1 ++ agentKeys h2 :=
  List.filterMap_append h1 h2 _

/-- Appending an agent Turn appends its key to `agentKeys`. -/
theorem agentKeys_histAppend (h : ConversationHistory) (a : ℕ) (t : String) :
    agentKeys (histAppend h (.agent a) t) = agentKeys h ++ [a] := by
  rw [histAppend, show List.append h [⟨Author.agent a, t, List.length h + 1⟩] =
    h ++ [⟨Author.agent a, t, List.length h + 1⟩] from rfl, agentKeys_append]
  rfl

/-- The agent Turns appended by the coordinator are, in order, exactly the
agents whose `done` events arrived, in completion order. -/
theorem processMerged_agentKeys (m : List (ℕ × StreamEvent)) :
    ∀ (h : ConversationHistory) (acc : ℕ → String),
      agentKeys (processMerged h acc m) = agentKeys h ++ doneKeys m := by
  induction m with
  | nil => intro h acc; simp [processMerged, doneKeys]
  | cons p m ih =>
    intro h acc
    obtain ⟨a, e⟩ := p
    cases e with
    | delta t =>
      rw [show processMerged h acc ((a, .delta t) :: m) =
        processMerged h (Function.update acc a (String.append (acc a) t)) m
        from rfl, ih]
      rfl
    | done =>
      rw [show processMerged h acc ((a, .done) :: m) =
        processMerged (histAppend h (.agent a) (acc a)) acc m from rfl, ih,
        agentKeys_histAppend]
      simp [doneKeys, List.filterMap_cons]
    | failed c =>
      rw [show processMerged h acc ((a, .failed c) :: m) =
        processMerged h acc m from rfl, ih]
      rfl

/-- Index of the marked occurrence in a list that avoids it on the left. -/
theorem indexOf_append_cons {a : ℕ} {l1 : List ℕ} (h : a ∉ l1) (l2 : List ℕ) :
    List.indexOf a (l1 ++ a :: l2) = l1.length := by
  induction l1 with
  | nil => simp
  | cons b l ih =>
    have hba : b ≠ a := by
      rintro rfl
      exact h (List.mem_cons_self _ _)
    rw [List.cons_append, List.indexOf_cons_ne _ hba,
      ih (fun hm => h (List.mem_cons_of_mem _ hm))]
    rfl

/-- Claim C1: if agent `A`'s `done` arrives strictly before agent `B`'s in the
merged sequence of a round (and, per terminal uniqueness, each completes only
there, with neither having spoken in the starting history), then the Turn the
coordinator appends for `A` stands strictly before the Turn appended for `B`,
whatever the roster order: appends follow completion order. -/
theorem append_order_eq_completion_order
    (h0 : ConversationHistory) (A B : ℕ)
    (m m1 m2 m3 : List (ℕ × StreamEvent))
    (hm : m = m1 ++ (A, StreamEvent.done) :: m2 ++ (B, StreamEvent.done) :: m3)
    (hAB : A ≠ B)
    (hA0 : A ∉ agentKeys h0) (hB0 : B ∉ agentKeys h0)
    (hA1 : A ∉ doneKeys m1) (hB1 : B ∉ doneKeys m1) (hB2 : B ∉ doneKeys m2) :
    A ∈ agentKeys (processMerged h0 accInit m) ∧
    B ∈ agentKeys (processMerged h0 accInit m) ∧
    List.indexOf A (agentKeys (processMerged h0 accInit m)) <
      List.indexOf B (agentKeys (processMerged h0 accInit m)) := by
  have base : agentKeys (processMerged h0 accInit m) =
      agentKeys h0 ++
        (doneKeys m1 ++ (A :: (doneKeys m2 ++ (B :: doneKeys m3)))) := by
    rw [processMerged_agentKeys, hm, doneKeys_append, doneKeys_append,
      doneKeys_cons_done, doneKeys_cons_done]
    simp [List.append_assoc]
  have hks : agentKeys (processMerged h0 accInit m) =
      (agentKeys h0 ++ doneKeys m1) ++
        A :: (doneKeys m2 ++ B :: doneKeys m3) := by
    rw [base]; simp [List.append_assoc]
  have hAnot : A ∉ agentKeys h0 ++ doneKeys m1 := by
    rw [List.mem_append]
    rintro (h | h)
    · exact hA0 h
    · exact hA1 h
  have hBnot : B ∉ (agentKeys h0 ++ doneKeys m1) ++ A :: doneKeys m2 := by
    rw [List.mem_append, List.mem_append, List.mem_cons]
    rintro ((h | h) | h | h)
    · exact hB0 h
    · exact hB1 h
    · exact hAB h.symm
    · exact hB2 h
  have hks2 : agentKeys (processMerged h0 accInit m) =
      ((agentKeys h0 ++ doneKeys m1) ++ A :: doneKeys m2) ++ B :: doneKeys m3 := by
    rw [hks]; simp
  refine ⟨?_, ?_, ?_⟩
  · rw [hks]
    exact List.mem_append_right _ (List.mem_cons_self _ _)
  · rw [hks2]
    exact List.mem_append_right _ (List.mem_cons_self _ _)
  · have hA : List.indexOf A (agentKeys (processMerged h0 accInit m)) =
        (agentKeys h0 ++ doneKeys m1).length := by
      rw [hks, indexOf_append_cons hAnot]
    have hB : List.indexOf B (agentKeys (processMerged h0 accInit m)) =
        ((agentKeys h0 ++ doneKeys m1) ++ A :: doneKeys m2).length := by
      rw [hks2, indexOf_append_cons hBnot]
    rw [hA, hB]
    simp only [List.length_append, List.length_cons]
    omega

/-- Witness for C1: a two-agent round in which agent 0 completes first. -/
theorem append_order_eq_completion_order_witness :
    0 ∈ agentKeys (processMerged [⟨Author.user, "hi", 1⟩] accInit
        [(0, .delta "a"), (0, .done), (1, .delta "b"), (1, .done)]) ∧
    1 ∈ agentKeys (processMerged [⟨Author.user, "hi", 1⟩] accInit
        [(0, .delta "a"), (0, .done), (1, .delta "b"), (1, .done)]) ∧
    List.indexOf 0 (agentKeys (processMerged [⟨Author.user, "hi", 1⟩] accInit
        [(0, .delta "a"), (0, .done), (1, .delta "b"), (1, .done)])) <
      List.indexOf 1 (agentKeys (processMerged [⟨Author.user, "hi", 1⟩] accInit
        [(0, .delta "a"), (0, .done), (1, .delta "b"), (1, .done)])) :=
  append_order_eq_completion_order [⟨Author.user, "hi", 1⟩] 0 1
    [(0, .delta "a"), (0, .done), (1, .delta "b"), (1, .done)]
    [(0, .delta "a")] [(1, .delta "b")] [] rfl
    (by decide) (by decide) (by decide) (by decide) (by decide) (by decide)

/-- The coordinator only ever appends: the starting history is a prefix of
the post-round history. -/
theorem processMerged_suffix (m : List (ℕ × StreamEvent)) :
    ∀ (h : ConversationHistory) (acc : ℕ → String),
      ∃ tail, processMerged h acc m = h ++ tail := by
  induction m with
  | nil => intro h acc; exact ⟨[], by simp [processMerged]⟩
  | cons p m ih =>
    intro h acc
    obtain ⟨a, e⟩ := p
    cases e with
    | delta t => exact ih h _
    | done =>
      obtain ⟨tail, htail⟩ := ih (histAppend h (.agent a) (acc a)) acc
      refine ⟨⟨Author.agent a, acc a, h.length + 1⟩ :: tail, ?_⟩
      rw [show processMerged h acc ((a, .done) :: m) =
        processMerged (histAppend h (.agent a) (acc a)) acc m from rfl, htail]
      simp [histAppend]
    | failed c => exact ih h acc

/-- Claim C5: the transcript input a session of round K reads is built from
the History snapshot frozen at round start: it is the same whatever events
(and hence whatever sibling appends) happen during the round, it equals the
rendering of the round-start history, and everything a sibling appended
during the round sits strictly after that snapshot in the post-round
history. -/
theorem snapshot_isolation (rules : String) (roster : List Agent)
    (h0 : ConversationHistory) (m mAlt : List (ℕ × StreamEvent)) :
    (runRound rules roster h0 m).2 = (runRound rules roster h0 mAlt).2 ∧
    (∀ k, (runRound rules roster h0 m).2 k =
      sessionInput rules (personaOf roster k) h0) ∧
    ∃ tail, (runRound rules roster h0 m).1 = h0 ++ tail := by
  refine ⟨rfl, fun k => rfl, ?_⟩
  exact processMerged_suffix m h0 accInit

/-- Appending never disturbs what is already stored. -/
theorem appendAll_suffix (ops : List (Author × String)) :
    ∀ h : ConversationHistory, ∃ tail, appendAll h ops = h ++ tail := by
  induction ops with
  | nil => intro h; exact ⟨[], by simp [appendAll]⟩
  | cons p ops ih =>
    intro h
    obtain ⟨tail, htail⟩ := ih (histAppend h p.1 p.2)
    refine ⟨⟨p.1, p.2, h.length + 1⟩ :: tail, ?_⟩
    rw [show appendAll h (p :: ops) = appendAll (histAppend h p.1 p.2) ops
      from rfl, htail]
    simp [histAppend]

/-- Sequence numbers of a history of appends count up from the stored length. -/
theorem appendAll_seqs (ops : List (Author × String)) :
    ∀ h : ConversationHistory, h.map Turn.seq = List.range' 1 h.length →
      (appendAll h ops).map Turn.seq = List.range' 1 (h.length + ops.length) := by
  induction ops with
  | nil => intro h hh; simpa [appendAll] using hh
  | cons p ops ih =>
    intro h hh
    have hlen : (histAppend h p.1 p.2).length = h.length + 1 := by
      simp [histAppend]
    have hinv : (histAppend h p.1 p.2).map Turn.seq =
        List.range' 1 (histAppend h p.1 p.2).length := by
      rw [hlen, histAppend]
      show (h ++ [(⟨p.1, p.2, h.length + 1⟩ : Turn)]).map Turn.seq = _
      rw [List.map_append, hh, List.range'_concat]
      simp [Nat.add_comm]
    have hrec := ih (histAppend h p.1 p.2) hinv
    rw [show appendAll h (p :: ops) = appendAll (histAppend h p.1 p.2) ops
      from rfl, hrec, hlen]
    simp only [List.length_cons]
    congr 1
    omega

/-- Claim C6: in a history built by appends, each Turn's sequence number is
1 plus the count of appends performed before it (so the stored sequence
numbers are `1, 2, ...`, strictly increasing), and an append operation never
reorders or mutates previously appended Turns: the prior history survives
unchanged as a prefix. -/
theorem history_seq_invariant (h : ConversationHistory)
    (ops : List (Author × String)) :
    (appendAll [] ops).map Turn.seq = List.range' 1 ops.length ∧
    List.Pairwise (· < ·) ((appendAll [] ops).map Turn.seq) ∧
    ∃ tail, appendAll h ops = h ++ tail := by
  have h1 : (appendAll [] ops).map Turn.seq = List.range' 1 ops.length := by
    simpa using appendAll_seqs ops [] (by simp)
  refine ⟨h1, ?_, appendAll_suffix ops h⟩
  rw [h1, List.range'_eq_map_range]
  exact (List.pairwise_lt_range _).map _ (fun a b hab => by omega)

/-- A terminal event drives any session state to a terminal state. -/
theorem stepState_terminal_event (s : SessionState) (e : StreamEvent)
    (he : e.isTerminal = true) : (stepState s e).isTerminal = true := by
  cases e with
  | delta t => exact absurd he (by simp [StreamEvent.isTerminal])
  | done =>
    show (if s.isTerminal = true then s else SessionState.completed).isTerminal = true
    by_cases hs : s.isTerminal = true
    · rw [if_pos hs]; exact hs
    · rw [if_neg hs]; rfl
  | failed c =>
    show (if s.isTerminal = true then s else SessionState.failedState).isTerminal = true
    by_cases hs : s.isTerminal = true
    · rw [if_pos hs]; exact hs
    · rw [if_neg hs]; rfl

/-- A session state that is already terminal stays terminal under any event. -/
theorem stepState_of_terminal (s : SessionState) (e : StreamEvent)
    (hs : s.isTerminal = true) : (stepState s e).isTerminal = true := by
  cases e <;> simp [stepState, hs]

/-- Terminality of a session survives the rest of the round. -/
theorem roundStates_terminal_mono (m : List (ℕ × StreamEvent)) :
    ∀ (st : ℕ → SessionState) (a : ℕ), (st a).isTerminal = true →
      (roundStates st m a).isTerminal = true := by
  induction m with
  | nil => intro st a h; exact h
  | cons p m ih =>
    intro st a h
    obtain ⟨k, e⟩ := p
    rw [show roundStates st ((k, e) :: m) =
      roundStates (Function.update st k (stepState (st k) e)) m from rfl]
    apply ih
    by_cases hk : a = k
    · subst hk
      rw [Function.update_same]
      exact stepState_of_terminal _ _ h
    · rw [Function.update_noteq hk]
      exact h

/-- Claim C7: the round runs the merged sequence to its end and is over
exactly then; since the decoder ends every session's sequence with a terminal
event (timeouts and errors included), a round whose merged sequence carries a
terminal event for every rostered agent leaves every dispatched session in a
terminal state.  Termination itself is structural: the round is a total
function of the finite merged sequence. -/
theorem round_completion (roster : List ℕ) (init : ℕ → SessionState)
    (m : List (ℕ × StreamEvent))
    (hterm : ∀ a ∈ roster, ∃ e : StreamEvent, e.isTerminal = true ∧ (a, e) ∈ m) :
    ∀ a ∈ roster, (roundStates init m a).isTerminal = true := by
  intro a ha
  obtain ⟨e, he, hmem⟩ := hterm a ha
  obtain ⟨s, t, rfl⟩ := List.append_of_mem hmem
  rw [show roundStates init (s ++ (a, e) :: t) =
    roundStates (roundStates init s) ((a, e) :: t) from by
      simp [roundStates, List.foldl_append]]
  rw [show roundStates (roundStates init s) ((a, e) :: t) =
    roundStates (Function.update (roundStates init s) a
      (stepState (roundStates init s a) e)) t from rfl]
  apply roundStates_terminal_mono
  rw [Function.update_same]
  exact stepState_terminal_event _ _ he

/-- Witness for C7: a concrete two-agent round, one clean completion and one
failure, both terminal afterwards. -/
theorem round_completion_witness :
    (roundStates (fun _ => SessionState.pending)
      [(0, .done), (1, .failed "boom")] 0).isTerminal = true ∧
    (roundStates (fun _ => SessionState.pending)
      [(0, .done), (1, .failed "boom")] 1).isTerminal = true := by
  have hterm : ∀ a ∈ [0, 1], ∃ e : StreamEvent, e.isTerminal = true ∧
      (a, e) ∈ [(0, StreamEvent.done), (1, StreamEvent.failed "boom")] := by
    intro a ha
    rcases List.mem_cons.mp ha with rfl | ha
    · exact ⟨.done, rfl, by decide⟩
    rcases List.mem_cons.mp ha with rfl | ha
    · exact ⟨.failed "boom", rfl, by decide⟩
    · simp at ha
  exact ⟨round_completion [0, 1] (fun _ => SessionState.pending)
      [(0, .done), (1, .failed "boom")] hterm 0 (by decide),
    round_completion [0, 1] (fun _ => SessionState.pending)
      [(0, .done), (1, .failed "boom")] hterm 1 (by decide)⟩

/-- The computable rational floor agrees with the mathematical floor. -/
theorem ratFloor_eq_floor (q : ℚ) : ratFloor q = ⌊q⌋ := Rat.floor_def.symm

/-- Python modulo with positive modulus is nonnegative. -/
theorem pymod_nonneg (a b : ℚ) (hb : 0 < b) : 0 ≤ pymod a b := by
  rw [pymod, ratFloor_eq_floor, sub_nonneg]
  have h1 : ((⌊a / b⌋ : ℚ)) ≤ a / b := Int.floor_le _
  calc b * ((⌊a / b⌋ : ℤ) : ℚ) ≤ b * (a / b) :=
        mul_le_mul_of_nonneg_left h1 hb.le
    _ = a := by field_simp

/-- Python modulo with positive modulus is below the modulus. -/
theorem pymod_lt (a b : ℚ) (hb : 0 < b) : pymod a b < b := by
  rw [pymod, ratFloor_eq_floor, sub_lt_iff_lt_add]
  have h2 : a / b < ⌊a / b⌋ + 1 := Int.lt_floor_add_one _
  calc a = b * (a / b) := by field_simp
    _ < b * (((⌊a / b⌋ : ℤ) : ℚ) + 1) := mul_lt_mul_of_pos_left h2 hb
    _ = b + b * ((⌊a / b⌋ : ℤ) : ℚ) := by ring

/-- The Venus-Saturn aspect distance is nonnegative. -/
theorem aspectDist_nonneg (v s : ℚ) : 0 ≤ aspectDist v s := by
  rw [aspectDist]
  apply le_min
  · exact pymod_nonneg _ _ (by norm_num)
  · have := pymod_lt (pymod |v - s| 360) 90 (by norm_num)
    linarith

/-- The Venus-Saturn aspect distance is at most 45 degrees. -/
theorem aspectDist_le (v s : ℚ) : aspectDist v s ≤ 45 := by
  rw [aspectDist]
  rcases le_total (pymod (pymod |v - s| 360) 90) 45 with h | h
  · exact le_trans (min_le_left _ _) h
  · exact le_trans (min_le_right _ _) (by linarith)

/-- Claim C8: `get_planetary_features` always returns a list of exactly six
numbers whose sixth entry is 0.5; the fifth entry (the aspect pressure
`1 / (dist + 1)`, where the aspect distance lies in `[0, 45]`) always lies in
`[0, 1]`; and the exception path returns the fallback `[0, 0, 0, 0, 0, 0.5]`
instead of raising. -/
theorem planetary_features_safe (trig : TrigOracle)
    (inp : Option PlanetLongitudes) :
    (get_planetary_features trig inp).length = 6 ∧
    (get_planetary_features trig inp).getLast? = some (1/2) ∧
    (∃ a, (get_planetary_features trig inp)[4]? = some a ∧ 0 ≤ a ∧ a ≤ 1) ∧
    (∀ p, inp = some p →
      0 ≤ aspectDist p.venus p.saturn ∧ aspectDist p.venus p.saturn ≤ 45) ∧
    (inp = none → get_planetary_features trig inp = [0, 0, 0, 0, 0, 1/2]) := by
  cases inp with
  | none =>
    refine ⟨rfl, rfl, ⟨0, rfl, le_refl 0, by norm_num⟩, ?_, fun _ => rfl⟩
    intro p hp
    exact Option.noConfusion hp
  | some p =>
    have h0 := aspectDist_nonneg p.venus p.saturn
    refine ⟨rfl, rfl, ?_, ?_, ?_⟩
    · refine ⟨1 / (aspectDist p.venus p.saturn + 1), rfl, ?_, ?_⟩
      · exact le_of_lt (div_pos one_pos (by linarith))
      · rw [div_le_one (by linarith)]
        linarith
    · intro q hq
      obtain rfl := Option.some.inj hq
      exact ⟨aspectDist_nonneg _ _, aspectDist_le _ _⟩
    · intro h
      exact Option.noConfusion h

/-- The truncated mean of a nonempty list of integers in `[20, 40]` lies in
`[20, 40]`. -/
theorem avg_in_range (l : List ℤ) (hne : l ≠ [])
    (hmem : ∀ g ∈ l, 20 ≤ g ∧ g ≤ 40) :
    20 ≤ l.sum / (l.length : ℤ) ∧ l.sum / (l.length : ℤ) ≤ 40 := by
  have hlen0 : 0 < l.length := List.length_pos.mpr hne
  have hlen : (0 : ℤ) < (l.length : ℤ) := by exact_mod_cast hlen0
  have hlo : (l.length : ℤ) * 20 ≤ l.sum := by
    have := List.card_nsmul_le_sum l (20 : ℤ) (fun x hx => (hmem x hx).1)
    simpa [nsmul_eq_mul] using this
  have hhi : l.sum ≤ (l.length : ℤ) * 40 := by
    have := List.sum_le_card_nsmul l (40 : ℤ) (fun x hx => (hmem x hx).2)
    simpa [nsmul_eq_mul] using this
  constructor
  · rw [Int.le_ediv_iff_mul_le hlen]
    linarith
  · have hlt : l.sum / (l.length : ℤ) < 41 := by
      rw [Int.ediv_lt_iff_lt_mul hlen]
      linarith
    omega

/-- Claim C9: the average cycle length returned by `analyze_cycle_patterns`
always lies in `[20, 40]`; it is 29 whenever there are fewer than two period
days, or fewer than two period starts, or no inter-start gap lies in
`[20, 40]`; otherwise it is the truncated integer mean of exactly the
in-range inter-start gaps.  The returned last-period date is `none` exactly
when fewer than two period days exist. -/
theorem cycle_patterns_correct (df : List Row) :
    (20 ≤ (analyze_cycle_patterns df).2 ∧ (analyze_cycle_patterns df).2 ≤ 40) ∧
    ((analyze_cycle_patterns df).1 = none ↔ (periodDays df).length < 2) ∧
    ((periodDays df).length < 2 → (analyze_cycle_patterns df).2 = 29) ∧
    ((periodStarts df).length < 2 → (analyze_cycle_patterns df).2 = 29) ∧
    (inRangeGaps df = [] → (analyze_cycle_patterns df).2 = 29) ∧
    (2 ≤ (periodDays df).length → 2 ≤ (periodStarts df).length →
      inRangeGaps df ≠ [] →
      (analyze_cycle_patterns df).2 =
        (inRangeGaps df).sum / ((inRangeGaps df).length : ℤ)) := by
  by_cases hlen : (periodDays df).length < 2
  · have ha : analyze_cycle_patterns df = (none, 29) := by
      unfold analyze_cycle_patterns
      rw [if_pos hlen]
    rw [ha]
    exact ⟨⟨by norm_num, by norm_num⟩, iff_of_true rfl hlen, fun _ => rfl,
      fun _ => rfl, fun _ => rfl, fun h _ _ => absurd h (by omega)⟩
  · have ha : analyze_cycle_patterns df = analyzeStarts (periodStarts df) := by
      unfold analyze_cycle_patterns
      rw [if_neg hlen]
    rcases hpd : periodDays df with _ | ⟨d0, pds⟩
    · rw [hpd] at hlen
      exact absurd (by simp) hlen
    · rw [hpd] at hlen
      have hstart0 : periodStarts df = d0 :: startsAux d0 pds := by
        unfold periodStarts
        rw [hpd]
        rfl
      rcases hsa : startsAux d0 pds with _ | ⟨s, ss⟩
      · rw [hsa] at hstart0
        have ha2 : analyze_cycle_patterns df = (some d0, 29) := by
          rw [ha, hstart0]
          rfl
        have hg : inRangeGaps df = [] := by
          unfold inRangeGaps
          rw [hstart0]
          rfl
        rw [ha2, hstart0, hg]
        exact ⟨⟨by norm_num, by norm_num⟩, iff_of_false (by simp) hlen,
          fun h => absurd h hlen, fun _ => rfl, fun _ => rfl,
          fun _ h _ => absurd h (by simp)⟩
      · rw [hsa] at hstart0
        have hg : inRangeGaps df =
            (gapsOf (d0 :: s :: ss)).filter
              (fun g => decide (20 ≤ g) && decide (g ≤ 40)) := by
          unfold inRangeGaps
          rw [hstart0]
        have ha2 : analyze_cycle_patterns df =
            ((d0 :: s :: ss).getLast?,
              if ((gapsOf (d0 :: s :: ss)).filter
                  (fun g => decide (20 ≤ g) && decide (g ≤ 40))).isEmpty then 29
              else ((gapsOf (d0 :: s :: ss)).filter
                  (fun g => decide (20 ≤ g) && decide (g ≤ 40))).sum /
                (((gapsOf (d0 :: s :: ss)).filter
                  (fun g => decide (20 ≤ g) && decide (g ≤ 40))).length : ℤ)) := by
          rw [ha, hstart0]
          rfl
        have hlast : (d0 :: s :: ss).getLast? =
            some ((d0 :: s :: ss).getLast (by simp)) :=
          List.getLast?_eq_getLast _ (by simp)
        rw [ha2, hstart0, hg]
        set L := (gapsOf (d0 :: s :: ss)).filter
          (fun g => decide (20 ≤ g) && decide (g ≤ 40)) with hL
        by_cases hLnil : L = []
        · rw [if_pos (by rw [hLnil]; rfl)]
          exact ⟨⟨by norm_num, by norm_num⟩, iff_of_false (by simp [hlast]) hlen,
            fun h => absurd h hlen, fun _ => rfl, fun _ => rfl,
            fun _ _ h6 => absurd hLnil h6⟩
        · have hempty : ¬ (L.isEmpty = true) := by
            rcases hLc : L with _ | ⟨g, gs⟩
            · exact absurd hLc hLnil
            · simp
          rw [if_neg hempty]
          have hbounds : ∀ g ∈ L, 20 ≤ g ∧ g ≤ 40 := by
            intro g hgL
            rw [hL] at hgL
            have hcond := (List.mem_filter.mp hgL).2
            simp only [Bool.and_eq_true, decide_eq_true_eq] at hcond
            exact hcond
          have havg := avg_in_range L hLnil hbounds
          exact ⟨havg, iff_of_false (by simp [hlast]) hlen,
            fun h => absurd h hlen,
            fun h => absurd h (by simp only [List.length_cons]; omega),
            fun h => absurd h hLnil,
            fun _ _ _ => rfl⟩

/-- Claim C10: for a target date absent from the historical lookup, dates on
or after the last period start are classified as exactly one of the four
stages with source tag `推算`, and the stage is `月经期` precisely when the
1-based day in cycle `(target - last) % avg + 1` lies in `[1, 5]`; a date
strictly before the last period start yields `(未知, 数据前)`.  The positive
average cycle length matches Python `%` semantics (and rules out the
`ZeroDivisionError` the source would hit at `avg = 0`). -/
theorem predicted_stage_correct
    (cycle_lookup : List (ℤ × String)) (last avg target : ℤ)
    (hmiss : lookupStage cycle_lookup target = none)
    (_hpos : 0 < avg) :
    (last ≤ target →
      (get_predicted_stage cycle_lookup (some last) avg target).2 = "推算" ∧
      (get_predicted_stage cycle_lookup (some last) avg target).1 ∈
        ["月经期", "卵泡期", "排卵期", "黄体期"] ∧
      ((get_predicted_stage cycle_lookup (some last) avg target).1 = "月经期" ↔
        1 ≤ (target - last) % avg + 1 ∧ (target - last) % avg + 1 ≤ 5)) ∧
    (target < last →
      get_predicted_stage cycle_lookup (some last) avg target =
        ("未知", "数据前")) := by
  have heq : get_predicted_stage cycle_lookup (some last) avg target =
      (if target - last < 0 then ("未知", "数据前")
       else if 1 ≤ (target - last) % avg + 1 ∧ (target - last) % avg + 1 ≤ 5 then
         ("月经期", "推算")
       else if avg - 14 + 2 ≤ (target - last) % avg + 1 then ("黄体期", "推算")
       else if avg - 14 - 1 ≤ (target - last) % avg + 1 ∧
           (target - last) % avg + 1 ≤ avg - 14 + 1 then ("排卵期", "推算")
       else ("卵泡期", "推算")) := by
    unfold get_predicted_stage
    rw [hmiss]
  constructor
  · intro hle
    have hd : ¬ (target - last < 0) := by omega
    rw [heq, if_neg hd]
    by_cases h1 : 1 ≤ (target - last) % avg + 1 ∧ (target - last) % avg + 1 ≤ 5
    · rw [if_pos h1]
      exact ⟨rfl, by decide, iff_of_true rfl h1⟩
    · rw [if_neg h1]
      by_cases h2 : avg - 14 + 2 ≤ (target - last) % avg + 1
      · rw [if_pos h2]
        exact ⟨rfl, by decide, iff_of_false (by decide) h1⟩
      · rw [if_neg h2]
        by_cases h3 : avg - 14 - 1 ≤ (target - last) % avg + 1 ∧
            (target - last) % avg + 1 ≤ avg - 14 + 1
        · rw [if_pos h3]
          exact ⟨rfl, by decide, iff_of_false (by decide) h1⟩
        · rw [if_neg h3]
          exact ⟨rfl, by decide, iff_of_false (by decide) h1⟩
  · intro hlt
    rw [heq, if_pos (by omega)]

/-- Witness for C10 at the empty lookup, last period day 0, average 29 and
target day 3. -/
theorem predicted_stage_correct_witness :
    (get_predicted_stage [] (some 0) 29 3).2 = "推算" ∧
    (get_predicted_stage [] (some 0) 29 3).1 ∈
      ["月经期", "卵泡期", "排卵期", "黄体期"] ∧
    ((get_predicted_stage [] (some 0) 29 3).1 = "月经期" ↔
      1 ≤ ((3 : ℤ) - 0) % 29 + 1 ∧ ((3 : ℤ) - 0) % 29 + 1 ≤ 5) :=
  (predicted_stage_correct [] 0 29 3 rfl (by norm_num)).1 (by norm_num)

end Poli
